import Mathlib

/-!
# Roulette: the queue executor (`execute.go`)

A verification development for `QueueExecutor.drainQueue` and
`QueueExecutor.fillQueue`.

`drainQueue` is embedded as a transition system.  A state is taken at the
channel operations at which the goroutine can block: the priming receive
(line 90), the `select` (line 106) and the send of the final range loop
(line 129).  One step performs one such channel operation together with the
non-blocking code that follows it up to the next blocking operation (the
type switch, `append`, the re-slicing, the test at the head of the loop and
the deferred `close(out)`).  The choice the `select` makes is an explicit
argument of the step function, so a schedule (a list of choices) is one
interleaving.

The Result Source (`q.Parser.Result().Get()`) is taken to be one finite
sequence of values followed by closure.

`fillQueue` is embedded as the iteration of the body of its loop.  The
statement `go q.processWorker(v)` adds a worker to the state and lets the loop
go on; the workers advance on turns of their own, so a schedule of turns is
one interleaving of the dispatcher and its workers.
-/

namespace Roulette

/-! ## Values -/

/-- Modelled from the spec: the type `empty` tested by `switch v.(type)` is
declared outside `execute.go`.  A value read from the result channel is either
the Empty Marker ("no result this round") or a genuine result value. -/
inductive Value (α : Type) where
  | empty : Value α
  | item (a : α) : Value α
  deriving DecidableEq

/-- The type switch `switch v.(type) { case empty: ... }` of lines 97 and 114. -/
def Value.isEmpty {α : Type} : Value α → Bool
  | .empty => true
  | .item _ => false

/-- A sequence of values with every Empty Marker removed. -/
def dropEmpty {α : Type} (vs : List (Value α)) : List (Value α) :=
  vs.filter (fun v => !v.isEmpty)

/-! ## The multiplexer `drainQueue` -/

/-- Control locations of `drainQueue`.
* `prime`: blocked in the receive of line 90 (taken when `len(pending) == 0`);
* `select`: at the `select` of line 106;
* `flush`: blocked in the send `out <- v` of the range loop, line 129;
* `done`: the function has returned and the deferred `close(out)` has run;
* `panicked`: `pending[0]` was evaluated on an empty slice. -/
inductive Loc where
  | prime
  | select
  | flush
  | done
  | panicked
  deriving DecidableEq

/-- State of `drainQueue`: the values the Result Source has still to produce
before it closes, the slice `pending` (in the range loop: the part of it not
yet iterated over), the values sent on `out` so far, whether `out` has been
closed, and the control location. -/
structure State (α : Type) where
  src : List (Value α)
  pending : List (Value α)
  out : List (Value α)
  closed : Bool
  loc : Loc
  deriving DecidableEq

/-- The case a channel operation takes: a receive from the Result Source
(which yields a value or observes closure), or a send on `out`. -/
inductive Choice where
  | recv
  | send
  deriving DecidableEq

/-- State on entry: `var pending []interface{}` is the nil slice, so the first
iteration of the loop tests `len(pending) == 0` true and blocks in the priming
receive; nothing has been sent and `out` is open. -/
def init {α : Type} (src : List (Value α)) : State α :=
  { src := src, pending := [], out := [], closed := false, loc := .prime }

/-- Head of the `recv:` loop, lines 86-89: the test `len(pending) == 0` decides
whether the iteration blocks in the priming receive or goes on to the
`select`. -/
def loopHead {α : Type} (s : State α) : State α :=
  if s.pending.length = 0 then { s with loc := .prime } else { s with loc := .select }

/-- After `break recv`, lines 127-131: the range loop sends what is left of
`pending`; when nothing is left the function returns and the deferred
`close(out)` of line 80 runs. -/
def flushLoop {α : Type} (s : State α) : State α :=
  match s.pending with
  | [] => { s with closed := true, loc := .done }
  | _ :: _ => { s with loc := .flush }

/-- One step of `drainQueue` under the choice `c`; `none` when the chosen
operation is not offered in the state.
* `prime`, lines 90-102: only the receive is offered.  On closure (`!ok`)
  `break recv`; on an Empty Marker `continue`; otherwise `append` and fall
  through to the `select`.
* `select`, lines 106-124: the operand `pending[0]` is evaluated on entry (a
  panic when `pending` is empty), then either case may be taken.  The receive
  case is the priming one except that control returns to the head of the loop;
  the send case re-slices `pending` and returns to the head of the loop.
* `flush`, lines 128-130: only the send is offered; the location is entered by
  `flushLoop` only with a value left to send.
* `done` and `panicked`: nothing runs any more. -/
def step {α : Type} (c : Choice) (s : State α) : Option (State α) :=
  match s.loc with
  | .prime =>
    match c with
    | .recv =>
      match s.src with
      | [] => some (flushLoop s)
      | v :: rest =>
        if v.isEmpty then some (loopHead { s with src := rest })
        else some { s with src := rest, pending := s.pending ++ [v], loc := .select }
    | .send => none
  | .select =>
    match s.pending with
    | [] => some { s with loc := .panicked }
    | p :: ps =>
      match c with
      | .recv =>
        match s.src with
        | [] => some (flushLoop s)
        | v :: rest =>
          if v.isEmpty then some (loopHead { s with src := rest })
          else some (loopHead { s with src := rest, pending := s.pending ++ [v] })
      | .send => some (loopHead { s with pending := ps, out := s.out ++ [p] })
  | .flush =>
    match c with
    | .recv => none
    | .send =>
      match s.pending with
      | [] => none
      | p :: ps => some (flushLoop { s with pending := ps, out := s.out ++ [p] })
  | .done => none
  | .panicked => none

/-- Run from a state under a schedule of choices. -/
def run {α : Type} : List Choice → State α → Option (State α)
  | [], s => some s
  | c :: cs, s => (step c s).bind (run cs)

/-- The function `drainQueue` run on a Result Source that produces `src` and
then closes, under the interleaving `sched`. -/
def drainQueue {α : Type} (sched : List Choice) (src : List (Value α)) : Option (State α) :=
  run sched (init src)

/-- Number of steps of the run of `cs` from `s` whose resulting state has `out`
closed, that is, in which `close(out)` was executed. -/
def closeCount {α : Type} : List Choice → State α → Nat
  | [], _ => 0
  | c :: cs, s =>
    match step c s with
    | none => 0
    | some t => (if t.closed then 1 else 0) + closeCount cs t

/-- The work left: twice the number of source values not yet received plus the
length of `pending`. -/
def work {α : Type} (s : State α) : Nat :=
  2 * s.src.length + s.pending.length

/-- The work left, plus one while the closure of the Result Source has still to
be observed. -/
def budget {α : Type} (s : State α) : Nat :=
  work s + (if s.loc = .prime ∨ s.loc = .select then 1 else 0)

/-- The schedule in which the whole source is received (and its closure
observed) before `out` accepts anything, and `out` then accepts everything. -/
def burst {α : Type} (src : List (Value α)) : List Choice :=
  List.replicate (src.length + 1) .recv ++ List.replicate (dropEmpty src).length .send

/-- What the control location says about the variables. -/
def LocOK {α : Type} (s : State α) : Prop :=
  match s.loc with
  | .prime => s.pending = [] ∧ s.closed = false
  | .select => s.pending ≠ [] ∧ s.closed = false
  | .flush => s.pending ≠ [] ∧ s.src = [] ∧ s.closed = false
  | .done => s.pending = [] ∧ s.src = [] ∧ s.closed = true
  | .panicked => False

/-- The transitions of `step` from the states in which the control location
agrees with the variables, spelled out one per path through the code. -/
inductive Trans {α : Type} : Choice → State α → State α → Prop
  | primeClosed (out : List (Value α)) :
      Trans .recv ⟨[], [], out, false, .prime⟩ ⟨[], [], out, true, .done⟩
  | primeEmpty (rest out : List (Value α)) :
      Trans .recv ⟨.empty :: rest, [], out, false, .prime⟩ ⟨rest, [], out, false, .prime⟩
  | primeItem (a : α) (rest out : List (Value α)) :
      Trans .recv ⟨.item a :: rest, [], out, false, .prime⟩ ⟨rest, [.item a], out, false, .select⟩
  | selClosed (p : Value α) (ps out : List (Value α)) :
      Trans .recv ⟨[], p :: ps, out, false, .select⟩ ⟨[], p :: ps, out, false, .flush⟩
  | selEmpty (rest : List (Value α)) (p : Value α) (ps out : List (Value α)) :
      Trans .recv ⟨.empty :: rest, p :: ps, out, false, .select⟩
        ⟨rest, p :: ps, out, false, .select⟩
  | selItem (a : α) (rest : List (Value α)) (p : Value α) (ps out : List (Value α)) :
      Trans .recv ⟨.item a :: rest, p :: ps, out, false, .select⟩
        ⟨rest, p :: ps ++ [.item a], out, false, .select⟩
  | selSendLast (src : List (Value α)) (p : Value α) (out : List (Value α)) :
      Trans .send ⟨src, [p], out, false, .select⟩ ⟨src, [], out ++ [p], false, .prime⟩
  | selSendMore (src : List (Value α)) (p q : Value α) (qs out : List (Value α)) :
      Trans .send ⟨src, p :: q :: qs, out, false, .select⟩
        ⟨src, q :: qs, out ++ [p], false, .select⟩
  | flushLast (p : Value α) (out : List (Value α)) :
      Trans .send ⟨[], [p], out, false, .flush⟩ ⟨[], [], out ++ [p], true, .done⟩
  | flushMore (p q : Value α) (qs out : List (Value α)) :
      Trans .send ⟨[], p :: q :: qs, out, false, .flush⟩ ⟨[], q :: qs, out ++ [p], false, .flush⟩

/-- The invariant of `drainQueue` on a Result Source producing `src0`: the
values received so far are a prefix `r` of `src0`, what has been sent followed
by `pending` is `r` without its Empty Markers, and the control location agrees
with the variables. -/
def Inv {α : Type} (src0 : List (Value α)) (s : State α) : Prop :=
  (∃ r, src0 = r ++ s.src ∧ s.out ++ s.pending = dropEmpty r) ∧ LocOK s

/-! ## The dispatcher `fillQueue` and its workers -/

/-- A call made by a worker goroutine: `q.Parser.Execute(vals)`. -/
inductive Call (β : Type) where
  | parserExecute (vals : β) : Call β
  deriving DecidableEq

/-- A goroutine started by `go q.processWorker(v)`: the call it makes, and the
number of scheduling steps that call still needs (`0`: it has finished). -/
structure Worker (β : Type) where
  call : Call β
  left : Nat
  deriving DecidableEq

/-- The function `process`, lines 56-60: it makes the one call
`q.Parser.Execute(vals)` and returns nil.  The parser is external; `exec vals`
is the number of scheduling steps its evaluation of `vals` takes. -/
def process {β : Type} (exec : β → Nat) (vals : β) : Worker β :=
  { call := .parserExecute vals, left := exec vals }

/-- The function `processWorker`, lines 52-54: it calls `process`. -/
def processWorker {β : Type} (exec : β → Nat) (vals : β) : Worker β :=
  process exec vals

/-- State of `fillQueue` and of the goroutines it has started: the Work Items
that will still be received on the channel `in` before it is closed, the
workers started so far in start order, and whether `fillQueue` has returned. -/
structure Fill (β : Type) where
  inp : List β
  workers : List (Worker β)
  returned : Bool
  deriving DecidableEq

/-- One iteration of the `fill:` loop, lines 64-75: receive from `in`; when it
is closed (`!ok`) `break fill` and return; otherwise `go q.processWorker(v)`,
which starts the worker and goes on without waiting for it.  `none` once
`fillQueue` has returned. -/
def fillStep {β : Type} (exec : β → Nat) (f : Fill β) : Option (Fill β) :=
  if f.returned then none
  else
    match f.inp with
    | [] => some { f with returned := true }
    | v :: rest => some { f with inp := rest, workers := f.workers ++ [processWorker exec v] }

/-- The `fill:` loop run for at most `fuel` iterations. -/
def fillLoop {β : Type} (exec : β → Nat) : Nat → Fill β → Fill β
  | 0, f => f
  | fuel + 1, f =>
    match fillStep exec f with
    | none => f
    | some g => fillLoop exec fuel g

/-- The function `fillQueue` on a channel `in` that delivers `items` and is then
closed, run for at most `fuel` iterations of its loop. -/
def fillQueue {β : Type} (exec : β → Nat) (fuel : Nat) (items : List β) : Fill β :=
  fillLoop exec fuel { inp := items, workers := [], returned := false }

/-- One scheduling step of the worker at position `i`: its call advances by one
step; `none` when there is no such worker or it has finished. -/
def tick {β : Type} : Nat → List (Worker β) → Option (List (Worker β))
  | _, [] => none
  | 0, w :: ws =>
    match w.left with
    | 0 => none
    | k + 1 => some ({ w with left := k } :: ws)
  | i + 1, w :: ws => (tick i ws).map (fun ws2 => w :: ws2)

/-- Whose turn it is: the goroutine running `fillQueue`, or a worker. -/
inductive Turn where
  | dispatcher
  | worker (i : Nat)
  deriving DecidableEq

/-- One step of the system made of `fillQueue` and its workers. -/
def sysStep {β : Type} (exec : β → Nat) : Turn → Fill β → Option (Fill β)
  | .dispatcher, f => fillStep exec f
  | .worker i, f => (tick i f.workers).map (fun ws => { f with workers := ws })

/-- Run of the system under an interleaving of turns. -/
def sysRun {β : Type} (exec : β → Nat) : List Turn → Fill β → Option (Fill β)
  | [], f => some f
  | t :: ts, f => (sysStep exec t f).bind (sysRun exec ts)

/-! ## Invariant -/

theorem trans_of_step {α : Type} {c : Choice} {s t : State α}
    (hl : LocOK s) (h : step c s = some t) : Trans c s t := by
  obtain ⟨src, pending, out, closed, loc⟩ := s
  cases loc <;> cases c <;> simp only [step] at h <;> simp only [LocOK] at hl
  all_goals first | (exact absurd h (by simp)) | skip
  · obtain ⟨rfl, rfl⟩ := hl
    rcases src with _ | ⟨v, rest⟩
    · simp only [flushLoop, Option.some.injEq] at h
      subst h
      exact .primeClosed _
    · cases v <;> simp [Value.isEmpty, loopHead] at h <;> subst h
      · exact .primeEmpty _ _
      · exact .primeItem _ _ _
  · obtain ⟨hp, rfl⟩ := hl
    rcases pending with _ | ⟨p, ps⟩
    · exact absurd rfl hp
    · rcases src with _ | ⟨v, rest⟩
      · simp only [flushLoop, Option.some.injEq] at h
        subst h
        exact .selClosed _ _ _
      · cases v <;> simp [Value.isEmpty, loopHead] at h <;> subst h
        · exact .selEmpty _ _ _ _
        · exact .selItem _ _ _ _ _
  · obtain ⟨hp, rfl⟩ := hl
    rcases pending with _ | ⟨p, _ | ⟨q, qs⟩⟩
    · exact absurd rfl hp
    · simp [loopHead] at h
      subst h
      exact .selSendLast _ _ _
    · simp [loopHead] at h
      subst h
      exact .selSendMore _ _ _ _ _
  · obtain ⟨hp, rfl, rfl⟩ := hl
    rcases pending with _ | ⟨p, _ | ⟨q, qs⟩⟩
    · exact absurd rfl hp
    · simp [flushLoop] at h
      subst h
      exact .flushLast _ _
    · simp [flushLoop] at h
      subst h
      exact .flushMore _ _ _ _

theorem step_of_trans {α : Type} {c : Choice} {s t : State α}
    (h : Trans c s t) : step c s = some t := by
  cases h <;> simp [step, flushLoop, loopHead, Value.isEmpty]

theorem locOK_of_trans {α : Type} {c : Choice} {s t : State α}
    (h : Trans c s t) : LocOK s ∧ LocOK t := by
  cases h <;> simp [LocOK]

theorem dropEmpty_append {α : Type} (xs ys : List (Value α)) :
    dropEmpty (xs ++ ys) = dropEmpty xs ++ dropEmpty ys := by
  simp [dropEmpty]

theorem dropEmpty_snoc_empty {α : Type} (r : List (Value α)) :
    dropEmpty (r ++ [.empty]) = dropEmpty r := by
  rw [dropEmpty_append]
  simp [dropEmpty, Value.isEmpty]

theorem dropEmpty_snoc_item {α : Type} (r : List (Value α)) (a : α) :
    dropEmpty (r ++ [.item a]) = dropEmpty r ++ [.item a] := by
  rw [dropEmpty_append]
  simp [dropEmpty, Value.isEmpty]

theorem inv_init {α : Type} (src0 : List (Value α)) : Inv src0 (init src0) := by
  refine ⟨⟨[], ?_, ?_⟩, ?_⟩ <;> simp [init, dropEmpty, LocOK]

theorem inv_step {α : Type} {src0 : List (Value α)} {c : Choice} {s t : State α}
    (hs : Inv src0 s) (h : step c s = some t) : Inv src0 t := by
  obtain ⟨⟨r, hr, ho⟩, hl⟩ := hs
  have ht := trans_of_step hl h
  refine ⟨?_, (locOK_of_trans ht).2⟩
  cases ht <;> simp only [] at hr ho ⊢
  case primeClosed => exact ⟨r, hr, ho⟩
  case primeEmpty rest out =>
    exact ⟨r ++ [.empty], by simp [hr], by rw [dropEmpty_snoc_empty, ← ho]⟩
  case primeItem a rest out =>
    exact ⟨r ++ [.item a], by simp [hr], by rw [dropEmpty_snoc_item, ← ho]; simp⟩
  case selClosed => exact ⟨r, hr, ho⟩
  case selEmpty rest p ps out =>
    exact ⟨r ++ [.empty], by simp [hr], by rw [dropEmpty_snoc_empty, ← ho]⟩
  case selItem a rest p ps out =>
    exact ⟨r ++ [.item a], by simp [hr], by rw [dropEmpty_snoc_item, ← ho]; simp⟩
  case selSendLast => exact ⟨r, hr, by simpa using ho⟩
  case selSendMore => exact ⟨r, hr, by simpa using ho⟩
  case flushLast => exact ⟨r, hr, by simpa using ho⟩
  case flushMore => exact ⟨r, hr, by simpa using ho⟩

theorem inv_run {α : Type} {src0 : List (Value α)} (cs : List Choice) {s t : State α}
    (hs : Inv src0 s) (h : run cs s = some t) : Inv src0 t := by
  induction cs generalizing s with
  | nil =>
    simp only [run, Option.some.injEq] at h
    exact h ▸ hs
  | cons c cs ih =>
    simp only [run] at h
    cases hc : step c s with
    | none => simp [hc] at h
    | some u =>
      rw [hc] at h
      exact ih (inv_step hs hc) h

theorem inv_drainQueue {α : Type} {src0 : List (Value α)} {cs : List Choice} {t : State α}
    (h : drainQueue cs src0 = some t) : Inv src0 t :=
  inv_run cs (inv_init src0) h


/-! ## Consequences of the invariant -/

theorem run_append {α : Type} (cs ds : List Choice) (s : State α) :
    run (cs ++ ds) s = (run cs s).bind (run ds) := by
  induction cs generalizing s with
  | nil => simp [run]
  | cons c cs ih =>
    simp only [List.cons_append, run]
    cases step c s with
    | none => simp
    | some u => simpa using ih u

theorem closed_iff_done {α : Type} {s : State α} (hl : LocOK s) :
    s.closed = true ↔ s.loc = .done := by
  obtain ⟨src, pending, out, closed, loc⟩ := s
  cases loc <;> simp [LocOK] at hl ⊢ <;> simp [hl]

theorem step_closed {α : Type} {s : State α} (hl : LocOK s) (hc : s.closed = true)
    (c : Choice) : step c s = none := by
  have hd := (closed_iff_done hl).1 hc
  simp [step, hd]

theorem run_closed {α : Type} {s t : State α} (hl : LocOK s) (hc : s.closed = true)
    {cs : List Choice} (h : run cs s = some t) : cs = [] ∧ t = s := by
  cases cs with
  | nil => simpa [run, eq_comm] using h
  | cons c cs => simp [run, step_closed hl hc] at h

theorem step_progress {α : Type} {s : State α} (hl : LocOK s) (hc : s.closed = false) :
    ∃ c t, step c s = some t := by
  obtain ⟨src, pending, out, closed, loc⟩ := s
  cases loc <;> simp only [LocOK] at hl
  · refine ⟨.recv, ?_⟩
    simp only [step]
    rcases src with _ | ⟨v, rest⟩
    · exact ⟨_, rfl⟩
    · by_cases hv : v.isEmpty = true <;> simp [hv]
  · rcases pending with _ | ⟨p, ps⟩
    · exact absurd rfl hl.1
    · exact ⟨.send, _, rfl⟩
  · rcases pending with _ | ⟨p, ps⟩
    · exact absurd rfl hl.1
    · exact ⟨.send, _, rfl⟩
  · simp only at hc
    simp [hc] at hl

theorem closed_facts {α : Type} {src0 : List (Value α)} {s : State α} (hs : Inv src0 s)
    (hc : s.closed = true) : s.src = [] ∧ s.pending = [] ∧ s.out = dropEmpty src0 := by
  obtain ⟨⟨r, hr, ho⟩, hl⟩ := hs
  have hd := (closed_iff_done hl).1 hc
  obtain ⟨src, pending, out, closed, loc⟩ := s
  simp only at hd
  subst hd
  simp only [LocOK] at hl
  obtain ⟨rfl, rfl, -⟩ := hl
  simp at hr ho
  simp [hr, ho]

theorem dropEmpty_of_no_empty {α : Type} (src : List (Value α))
    (h : ∀ v ∈ src, v.isEmpty = false) : dropEmpty src = src := by
  simp only [dropEmpty, List.filter_eq_self]
  intro v hv
  simp [h v hv]

/-! ## The run that receives everything first -/

theorem run_recv_all {α : Type} (src pend out : List (Value α)) :
    run (List.replicate src.length .recv) (loopHead ⟨src, pend, out, false, .prime⟩)
      = some (loopHead ⟨[], pend ++ dropEmpty src, out, false, .prime⟩) := by
  induction src generalizing pend with
  | nil => simp [run, dropEmpty]
  | cons v rest ih =>
    have hstep : step .recv (loopHead ⟨v :: rest, pend, out, false, .prime⟩)
        = some (loopHead ⟨rest, pend ++ dropEmpty [v], out, false, .prime⟩) := by
      rcases pend with _ | ⟨p, ps⟩ <;> cases v <;>
        simp [step, loopHead, dropEmpty, Value.isEmpty]
    have hd : dropEmpty (v :: rest) = dropEmpty [v] ++ dropEmpty rest := by
      rw [← dropEmpty_append]
      rfl
    simp only [List.length_cons, List.replicate_succ, run, hstep, Option.some_bind]
    rw [ih, hd, List.append_assoc]

theorem step_recv_closed {α : Type} (pend out : List (Value α)) :
    step .recv (loopHead ⟨[], pend, out, false, .prime⟩)
      = some (flushLoop ⟨[], pend, out, false, .prime⟩) := by
  rcases pend with _ | ⟨p, ps⟩ <;> simp [step, loopHead, flushLoop]

theorem run_flush_all {α : Type} (pend out : List (Value α)) :
    run (List.replicate pend.length .send) (flushLoop ⟨[], pend, out, false, .prime⟩)
      = some ⟨[], [], out ++ pend, true, .done⟩ := by
  induction pend generalizing out with
  | nil => simp [run, flushLoop]
  | cons p ps ih =>
    have hstep : step .send (flushLoop ⟨[], p :: ps, out, false, .prime⟩)
        = some (flushLoop ⟨[], ps, out ++ [p], false, .prime⟩) := by
      rcases ps with _ | ⟨q, qs⟩ <;> simp [step, flushLoop]
    simp only [List.length_cons, List.replicate_succ, run, hstep, Option.some_bind]
    rw [ih]
    simp

theorem run_burst {α : Type} (src : List (Value α)) :
    drainQueue (burst src) src = some ⟨[], [], dropEmpty src, true, .done⟩ := by
  have h0 : init src = loopHead ⟨src, [], [], false, .prime⟩ := by simp [init, loopHead]
  have h1 := run_recv_all src [] []
  have h2 := step_recv_closed (dropEmpty src) []
  have h3 := run_flush_all (dropEmpty src) []
  simp only [List.nil_append] at h1 h3
  simp only [drainQueue, burst, List.replicate_add, List.append_assoc, h0, run_append, h1,
    Option.some_bind]
  simp only [List.replicate_one, run, h2, Option.some_bind, h3]

/-! ## Termination measure -/

theorem budget_trans {α : Type} {c : Choice} {s t : State α} (h : Trans c s t) :
    budget t + 1 ≤ budget s := by
  cases h <;> simp [budget, work] <;> omega

theorem work_trans {α : Type} {c : Choice} {s t : State α} (h : Trans c s t)
    (hc : c = .send ∨ s.src ≠ []) : work t < work s := by
  cases h <;> simp [work] at hc ⊢ <;> omega

theorem run_length_le {α : Type} (cs : List Choice) {s t : State α} (hl : LocOK s)
    (h : run cs s = some t) : cs.length + budget t ≤ budget s := by
  induction cs generalizing s with
  | nil =>
    simp only [run, Option.some.injEq] at h
    simp [h]
  | cons c cs ih =>
    simp only [run] at h
    cases hc : step c s with
    | none => simp [hc] at h
    | some u =>
      rw [hc] at h
      have htr := trans_of_step hl hc
      have h1 := budget_trans htr
      have h2 := ih (locOK_of_trans htr).2 h
      simp only [List.length_cons]
      omega

theorem budget_init {α : Type} (src : List (Value α)) :
    budget (init src) = 2 * src.length + 1 := by
  simp [budget, work, init]

/-! ## After the source is exhausted -/

theorem exhausted_trans {α : Type} {c : Choice} {s t : State α} (h : Trans c s t)
    (hsrc : s.src = []) :
    t.src = [] ∧ ∃ d, s.pending = d ++ t.pending ∧ t.out = s.out ++ d := by
  cases h
  case primeClosed out => exact ⟨rfl, [], rfl, by simp⟩
  case primeEmpty rest out => exact absurd hsrc (by simp)
  case primeItem a rest out => exact absurd hsrc (by simp)
  case selClosed p ps out => exact ⟨rfl, [], rfl, by simp⟩
  case selEmpty rest p ps out => exact absurd hsrc (by simp)
  case selItem a rest p ps out => exact absurd hsrc (by simp)
  case selSendLast src p out => exact ⟨hsrc, [p], rfl, rfl⟩
  case selSendMore src p q qs out => exact ⟨hsrc, [p], rfl, rfl⟩
  case flushLast p out => exact ⟨rfl, [p], rfl, rfl⟩
  case flushMore p q qs out => exact ⟨rfl, [p], rfl, rfl⟩

theorem exhausted_run {α : Type} (cs : List Choice) {s t : State α} (hl : LocOK s)
    (hsrc : s.src = []) (h : run cs s = some t) :
    LocOK t ∧ t.src = [] ∧ ∃ d, s.pending = d ++ t.pending ∧ t.out = s.out ++ d := by
  induction cs generalizing s with
  | nil =>
    simp only [run, Option.some.injEq] at h
    subst h
    exact ⟨hl, hsrc, [], by simp⟩
  | cons c cs ih =>
    simp only [run] at h
    cases hc : step c s with
    | none => simp [hc] at h
    | some u =>
      rw [hc] at h
      have htr := trans_of_step hl hc
      obtain ⟨hu, d1, hp1, ho1⟩ := exhausted_trans htr hsrc
      obtain ⟨hlt, ht, d2, hp2, ho2⟩ := ih (locOK_of_trans htr).2 hu h
      exact ⟨hlt, ht, d1 ++ d2, by rw [hp1, hp2, List.append_assoc],
        by rw [ho2, ho1, List.append_assoc]⟩

/-! ## Closing `out` -/

theorem closeCount_run {α : Type} (cs : List Choice) {s t : State α} (hl : LocOK s)
    (hc : s.closed = false) (h : run cs s = some t) :
    closeCount cs s = if t.closed then 1 else 0 := by
  induction cs generalizing s with
  | nil =>
    simp only [run, Option.some.injEq] at h
    subst h
    simp [closeCount, hc]
  | cons c cs ih =>
    simp only [run] at h
    cases hs : step c s with
    | none => simp [hs] at h
    | some u =>
      rw [hs] at h
      have hlu := (locOK_of_trans (trans_of_step hl hs)).2
      simp only [closeCount, hs]
      cases hu : u.closed with
      | true =>
        obtain ⟨rfl, rfl⟩ := run_closed hlu hu h
        simp [closeCount, hu]
      | false =>
        rw [ih hlu hu h]
        simp

theorem sends_only {α : Type} (cs : List Choice) {s t : State α} (hl : LocOK s)
    (hloc : s.loc = .flush ∨ s.loc = .done) (h : run cs s = some t) :
    ∀ c ∈ cs, c = .send := by
  induction cs generalizing s with
  | nil => simp
  | cons c cs ih =>
    simp only [run] at h
    cases hs : step c s with
    | none => simp [hs] at h
    | some u =>
      rw [hs] at h
      have htr := trans_of_step hl hs
      have hlu := (locOK_of_trans htr).2
      have key : c = .send ∧ (u.loc = .flush ∨ u.loc = .done) := by
        cases htr <;> simp at hloc ⊢
      intro x hx
      rcases List.mem_cons.1 hx with rfl | hx
      · exact key.1
      · exact ih hlu key.2 h x hx

theorem closure_observed {α : Type} (cs : List Choice) {s t : State α} (hl : LocOK s)
    (hloc : s.loc = .prime ∨ s.loc = .select) (h : run cs s = some t)
    (hc : t.closed = true) :
    ∃ cs1 cs2 u, cs = cs1 ++ .recv :: cs2 ∧ run cs1 s = some u ∧ u.src = [] ∧
      u.closed = false ∧ ∀ c ∈ cs2, c = .send := by
  induction cs generalizing s with
  | nil =>
    simp only [run, Option.some.injEq] at h
    subst h
    have hd := (closed_iff_done hl).1 hc
    rw [hd] at hloc
    simp at hloc
  | cons c cs ih =>
    simp only [run] at h
    cases hs : step c s with
    | none => simp [hs] at h
    | some u =>
      rw [hs] at h
      have htr := trans_of_step hl hs
      have hlu := (locOK_of_trans htr).2
      have key : (c = .recv ∧ s.src = [] ∧ s.closed = false ∧ (u.loc = .flush ∨ u.loc = .done)) ∨
          (u.loc = .prime ∨ u.loc = .select) := by
        cases htr <;> simp at hloc ⊢
      rcases key with ⟨rfl, hsrc, hcl, hu⟩ | hu
      · exact ⟨[], cs, s, rfl, rfl, hsrc, hcl, sends_only cs hlu hu h⟩
      · obtain ⟨cs1, cs2, v, hcs, hr1, hv, hvc, hall⟩ := ih hlu hu h
        refine ⟨c :: cs1, cs2, v, by rw [hcs]; rfl, ?_, hv, hvc, hall⟩
        simp only [run, hs, Option.some_bind]
        exact hr1

theorem dropEmpty_map_item {α : Type} (vs : List α) :
    dropEmpty (vs.map Value.item) = vs.map Value.item := by
  apply dropEmpty_of_no_empty
  intro v hv
  obtain ⟨a, -, rfl⟩ := List.mem_map.1 hv
  rfl

theorem dropEmpty_replicate_empty {α : Type} (n : Nat) :
    dropEmpty (List.replicate n (Value.empty : Value α)) = [] := by
  simp only [dropEmpty, List.filter_eq_nil_iff]
  intro v hv
  rw [(List.mem_replicate.1 hv).2]
  simp [Value.isEmpty]

theorem no_infinite_run {α : Type} (s : State α) (hl : LocOK s) :
    ¬ ∃ f : Nat → State α, f 0 = s ∧ ∀ i, ∃ c, step c (f i) = some (f (i + 1)) := by
  rintro ⟨f, hf0, hf⟩
  have hpre : ∀ k, ∃ cs : List Choice, cs.length = k ∧ run cs s = some (f k) := by
    intro k
    induction k with
    | zero => exact ⟨[], rfl, by simp [run, hf0]⟩
    | succ k ih =>
      obtain ⟨cs, hlen, hr⟩ := ih
      obtain ⟨c, hc⟩ := hf k
      refine ⟨cs ++ [c], by simp [hlen], ?_⟩
      rw [run_append, hr]
      simp [run, hc]
  obtain ⟨cs, hlen, hr⟩ := hpre (budget s + 1)
  have := run_length_le cs hl hr
  omega

/-! ## The dispatcher loop -/

theorem fillLoop_returned {β : Type} (exec : β → Nat) (fuel : Nat) (f : Fill β)
    (h : f.returned = true) : fillLoop exec fuel f = f := by
  cases fuel with
  | zero => rfl
  | succ k => simp [fillLoop, fillStep, h]

theorem fillLoop_enough {β : Type} (exec : β → Nat) (items : List β) (ws : List (Worker β))
    (fuel : Nat) (h : items.length < fuel) :
    fillLoop exec fuel ⟨items, ws, false⟩ = ⟨[], ws ++ items.map (processWorker exec), true⟩ := by
  induction items generalizing ws fuel with
  | nil =>
    cases fuel with
    | zero => simp at h
    | succ k =>
      simp only [fillLoop, fillStep, Bool.false_eq_true, if_false, List.map_nil, List.append_nil]
      exact fillLoop_returned exec k _ rfl
  | cons v rest ih =>
    cases fuel with
    | zero => simp at h
    | succ k =>
      simp only [fillLoop, fillStep, Bool.false_eq_true, if_false]
      rw [ih (ws ++ [processWorker exec v]) k (by simpa using h)]
      simp

theorem fillLoop_short {β : Type} (exec : β → Nat) (k : Nat) (items : List β)
    (ws : List (Worker β)) (h : k ≤ items.length) :
    fillLoop exec k ⟨items, ws, false⟩
      = ⟨items.drop k, ws ++ (items.take k).map (processWorker exec), false⟩ := by
  induction k generalizing items ws with
  | zero => simp [fillLoop]
  | succ k ih =>
    cases items with
    | nil => simp at h
    | cons v rest =>
      simp only [fillLoop, fillStep, Bool.false_eq_true, if_false]
      rw [ih rest (ws ++ [processWorker exec v]) (by simpa using h)]
      simp

theorem tick_call {β : Type} (i : Nat) (ws ws2 : List (Worker β)) (h : tick i ws = some ws2) :
    ws2.map Worker.call = ws.map Worker.call := by
  induction ws generalizing i ws2 with
  | nil => simp [tick] at h
  | cons w ws ih =>
    cases i with
    | zero =>
      simp only [tick] at h
      split at h
      · simp at h
      · simp only [Option.some.injEq] at h
        subst h
        rfl
    | succ i =>
      simp only [tick] at h
      cases h3 : tick i ws with
      | none => simp [h3] at h
      | some ws3 =>
        simp only [h3, Option.map_some', Option.some.injEq] at h
        subst h
        simp [ih i ws3 h3]

theorem sysRun_started {β : Type} (exec : β → Nat) (sched : List Turn) (f g : Fill β)
    (h : sysRun exec sched f = some g) :
    g.workers.map Worker.call
      = f.workers.map Worker.call
        ++ (f.inp.take (sched.count .dispatcher)).map Call.parserExecute ∧
    g.inp = f.inp.drop (sched.count .dispatcher) := by
  induction sched generalizing f with
  | nil =>
    simp only [sysRun, Option.some.injEq] at h
    subst h
    simp
  | cons t ts ih =>
    simp only [sysRun] at h
    cases hs : sysStep exec t f with
    | none => simp [hs] at h
    | some f1 =>
      rw [hs] at h
      obtain ⟨hw, hi⟩ := ih f1 h
      cases t with
      | dispatcher =>
        obtain ⟨inp, ws, returned⟩ := f
        simp only [sysStep, fillStep] at hs
        cases returned with
        | true => simp at hs
        | false =>
          cases inp with
          | nil =>
            simp only [Bool.false_eq_true, if_false, Option.some.injEq] at hs
            subst hs
            simpa using And.intro hw hi
          | cons v rest =>
            simp only [Bool.false_eq_true, if_false, Option.some.injEq] at hs
            subst hs
            simp only [List.count_cons_self, List.take_succ_cons, List.map_cons,
              List.drop_succ_cons]
            refine ⟨?_, hi⟩
            rw [hw]
            simp [processWorker, process]
      | worker i =>
        simp only [sysStep] at hs
        cases h2 : tick i f.workers with
        | none => simp [h2] at hs
        | some ws2 =>
        simp only [h2, Option.map_some', Option.some.injEq] at hs
        subst hs
        have hc := tick_call i _ _ h2
        simp only at hw hi
        rw [List.count_cons_of_ne (by simp)]
        exact ⟨by rw [hw, hc], hi⟩

/-! ## Functional correctness of `drainQueue` -/

/-- C1: for every source sequence `src` a complete run of `drainQueue` exists,
and every run (every interleaving `cs`) that ends with `out` closed has
delivered exactly `src` with the Empty Markers removed, in order; so a source
without Empty Markers is delivered unchanged and `[Empty, v1, Empty, v2]` is
delivered as `[v1, v2]`. -/
theorem drainQueue_delivers_source_without_empties {α : Type} (src : List (Value α)) :
    (∃ cs t, drainQueue cs src = some t ∧ t.closed = true) ∧
    ∀ (cs : List Choice) (t : State α), drainQueue cs src = some t → t.closed = true →
      t.out = dropEmpty src ∧
      ((∀ v ∈ src, v.isEmpty = false) → t.out = src) ∧
      (∀ v1 v2 : α, src = [.empty, .item v1, .empty, .item v2] →
        t.out = [.item v1, .item v2]) := by
  refine ⟨⟨burst src, _, run_burst src, rfl⟩, ?_⟩
  intro cs t hrun hclosed
  have hout := (closed_facts (inv_drainQueue hrun) hclosed).2.2
  refine ⟨hout, ?_, ?_⟩
  · intro hne
    rw [hout, dropEmpty_of_no_empty src hne]
  · intro v1 v2 hsrc
    rw [hout, hsrc]
    rfl

/-- Witness for C1: on the source `[Empty, 7, Empty, 9]`, under an interleaving
that mixes receives and sends, the run closes `out` having delivered `[7, 9]`. -/
theorem drainQueue_delivers_source_without_empties_witness :
    drainQueue [.recv, .recv, .send, .recv, .recv, .recv, .send]
        [Value.empty, .item 7, .empty, .item 9]
      = some ⟨[], [], [.item 7, .item 9], true, .done⟩ ∧
    (⟨[], [], [.item 7, .item 9], true, .done⟩ : State Nat).out = [.item 7, .item 9] :=
  ⟨rfl, ((drainQueue_delivers_source_without_empties
      [Value.empty, .item 7, .empty, .item 9]).2
      [.recv, .recv, .send, .recv, .recv, .recv, .send]
      ⟨[], [], [.item 7, .item 9], true, .done⟩ rfl rfl).2.2 7 9 rfl⟩

/-- C2: at every reachable state of `drainQueue`, the values received so far
are a prefix `r` of the source, and the values sent on `out` followed by
`pending` are exactly `r` with its Empty Markers removed; hence they form a
subsequence of what was received (nothing duplicated, nothing but Empty
Markers dropped, production order kept), `pending` is the tail of it, and
`pending` holds no Empty Marker. -/
theorem drainQueue_sent_pending_eq_received {α : Type} (src0 : List (Value α))
    (cs : List Choice) (s : State α) (hrun : drainQueue cs src0 = some s) :
    ∃ r, src0 = r ++ s.src ∧
      s.out ++ s.pending = dropEmpty r ∧
      (s.out ++ s.pending).Sublist r ∧
      s.pending <:+ dropEmpty r ∧
      (∀ v ∈ s.pending, v.isEmpty = false) := by
  obtain ⟨⟨r, hr, ho⟩, -⟩ := inv_drainQueue hrun
  refine ⟨r, hr, ho, ?_, ?_, ?_⟩
  · rw [ho]
    exact List.filter_sublist r
  · exact ⟨s.out, ho⟩
  · intro v hv
    have hmem : v ∈ dropEmpty r := by
      rw [← ho]
      exact List.mem_append_right _ hv
    simpa [dropEmpty] using (List.mem_filter.1 hmem).2

/-- Witness for C2: after three receives and one send on the source
`[Empty, 1, 2, Empty, 3]`, `1` has been sent, `2` is pending, and the received
prefix is `[Empty, 1, 2]`. -/
theorem drainQueue_sent_pending_eq_received_witness :
    ∃ r : List (Value Nat), [Value.empty, .item 1, .item 2, .empty, .item 3] = r ++ [.empty, .item 3] ∧
      [Value.item 1] ++ [Value.item 2] = dropEmpty r ∧
      ([Value.item 1] ++ [Value.item 2]).Sublist r ∧
      [Value.item 2] <:+ dropEmpty r ∧
      (∀ v ∈ [Value.item 2], v.isEmpty = false) :=
  drainQueue_sent_pending_eq_received [Value.empty, .item 1, .item 2, .empty, .item 3]
    [.recv, .recv, .recv, .send] ⟨[.empty, .item 3], [.item 2], [.item 1], false, .select⟩ rfl

/-- C5: when the Result Source closes without having produced anything, the
only step `drainQueue` can take is the receive that observes the closure; it
sends nothing and closes `out`, so every run from the empty source has an
empty delivered output, and the run that takes that step ends closed. -/
theorem drainQueue_empty_source {α : Type} :
    step .send (init ([] : List (Value α))) = none ∧
    drainQueue [.recv] ([] : List (Value α)) = some ⟨[], [], [], true, .done⟩ ∧
    ∀ (cs : List Choice) (t : State α), drainQueue cs [] = some t →
      t.out = [] ∧ (cs = [] ∧ t = init [] ∨ cs = [.recv] ∧ t.closed = true) := by
  refine ⟨rfl, rfl, ?_⟩
  intro cs t hrun
  cases cs with
  | nil =>
    simp only [drainQueue, run, Option.some.injEq] at hrun
    subst hrun
    exact ⟨rfl, Or.inl ⟨rfl, rfl⟩⟩
  | cons c cs =>
    cases c with
    | send => simp [drainQueue, run, step, init] at hrun
    | recv =>
      have h1 : step .recv (init ([] : List (Value α))) = some ⟨[], [], [], true, .done⟩ := rfl
      simp only [drainQueue, run, h1, Option.some_bind] at hrun
      obtain ⟨rfl, rfl⟩ := run_closed (by simp [LocOK]) rfl hrun
      exact ⟨rfl, Or.inr ⟨rfl, rfl⟩⟩

/-- Witness for C5: the run `[recv]` from the empty source ends closed with
nothing delivered. -/
theorem drainQueue_empty_source_witness :
    (⟨[], [], [], true, .done⟩ : State Nat).out = [] ∧
    (([.recv] : List Choice) = [] ∧ (⟨[], [], [], true, .done⟩ : State Nat) = init [] ∨
      ([.recv] : List Choice) = [.recv] ∧ (⟨[], [], [], true, .done⟩ : State Nat).closed = true) :=
  drainQueue_empty_source.2.2 [.recv] ⟨[], [], [], true, .done⟩ rfl

/-- C3: in a reachable state at the `select` whose `pending` holds `k > 0`
values while the Result Source has nothing left (so that the next receive
observes it closed), that receive keeps `pending` and `out` as they are; every
continuation has sent, after what was already sent, a prefix of `pending` in
order and still holds the rest; `out` is closed only once all of `pending` has
been sent; a continuation that has not closed `out` can go on, and none is
longer than `k + 1` steps; the continuation that observes the closure and then
sends `k` times ends with `out` closed after all `k` values. -/
theorem drainQueue_drains_pending_on_close {α : Type} (src0 : List (Value α))
    (cs : List Choice) (s : State α) (hrun : drainQueue cs src0 = some s)
    (hpend : s.pending ≠ []) (hsrc : s.src = []) (hloc : s.loc = .select) :
    step .recv s = some { s with loc := .flush } ∧
    (∀ (cs2 : List Choice) (t : State α), run cs2 s = some t →
      (∃ d, s.pending = d ++ t.pending ∧ t.out = s.out ++ d) ∧
      (t.closed = true → t.pending = [] ∧ t.out = s.out ++ s.pending) ∧
      (t.closed = false → ∃ c u, step c t = some u) ∧
      cs2.length ≤ s.pending.length + 1) ∧
    run (.recv :: List.replicate s.pending.length .send) s
      = some ⟨[], [], s.out ++ s.pending, true, .done⟩ := by
  have hinv := inv_drainQueue hrun
  have hl := hinv.2
  have hstep : step .recv s = some { s with loc := .flush } := by
    obtain ⟨src, pending, out, closed, loc⟩ := s
    simp only at hpend hsrc hloc
    subst hsrc hloc
    rcases pending with _ | ⟨p, ps⟩
    · exact absurd rfl hpend
    · simp [step, flushLoop]
  refine ⟨hstep, ?_, ?_⟩
  · intro cs2 t h2
    obtain ⟨hlt, -, d, hp, ho⟩ := exhausted_run cs2 hl hsrc h2
    refine ⟨⟨d, hp, ho⟩, ?_, step_progress hlt, ?_⟩
    · intro hc
      have hd := (closed_iff_done hlt).1 hc
      have hpt : t.pending = [] := by
        obtain ⟨src, pending, out, closed, loc⟩ := t
        simp only at hd
        subst hd
        exact hlt.1
      rw [hpt, List.append_nil] at hp
      exact ⟨hpt, by rw [ho, hp]⟩
    · have hb := run_length_le cs2 hl h2
      have hs : budget s = s.pending.length + 1 := by simp [budget, work, hsrc, hloc]
      omega
  · obtain ⟨src, pending, out, closed, loc⟩ := s
    simp only at hpend hsrc hloc hstep ⊢
    subst hsrc hloc
    have hcl : closed = false := hl.2
    subst hcl
    have hf : flushLoop ⟨[], pending, out, false, .prime⟩ = ⟨[], pending, out, false, .flush⟩ := by
      rcases pending with _ | ⟨p, ps⟩
      · exact absurd rfl hpend
      · rfl
    simp only [run, hstep, Option.some_bind]
    rw [← hf]
    exact run_flush_all pending out

/-- Witness for C3: on the source `[1, 2]`, after both values are received the
state is at the `select` with `pending = [1, 2]` and an exhausted source; the
continuation that observes the closure and sends twice closes `out` after
`[1, 2]`. -/
theorem drainQueue_drains_pending_on_close_witness :
    drainQueue [.recv, .recv] [Value.item 1, .item 2]
      = some ⟨[], [.item 1, .item 2], [], false, .select⟩ ∧
    run [.recv, .send, .send] (⟨[], [.item 1, .item 2], [], false, .select⟩ : State Nat)
      = some ⟨[], [], [.item 1, .item 2], true, .done⟩ :=
  ⟨rfl, (drainQueue_drains_pending_on_close [Value.item 1, .item 2] [.recv, .recv]
    ⟨[], [.item 1, .item 2], [], false, .select⟩ rfl (by simp) rfl rfl).2.2⟩

/-- C4: along every run of `drainQueue`, the run is complete (no step is
offered) exactly when `out` is closed; `close(out)` has been executed once if
`out` is closed and not at all otherwise, so exactly once on a complete run;
and when `out` is closed no step, hence no send, follows, the source is
exhausted, `pending` is empty, everything received but the Empty Markers has
been delivered, and earlier in the run a receive was taken on the exhausted
source (the closure was observed), followed by sends only. -/
theorem drainQueue_closes_out_once {α : Type} (src0 : List (Value α))
    (cs : List Choice) (t : State α) (hrun : drainQueue cs src0 = some t) :
    ((∀ c, step c t = none) ↔ t.closed = true) ∧
    closeCount cs (init src0) = (if t.closed then 1 else 0) ∧
    ((∀ c, step c t = none) → closeCount cs (init src0) = 1) ∧
    (t.closed = true →
      step .send t = none ∧ t.src = [] ∧ t.pending = [] ∧ t.out = dropEmpty src0 ∧
      ∃ cs1 cs2 u, cs = cs1 ++ .recv :: cs2 ∧ drainQueue cs1 src0 = some u ∧
        u.src = [] ∧ u.closed = false ∧ ∀ c ∈ cs2, c = .send) := by
  have hinv := inv_drainQueue hrun
  have hl := hinv.2
  have hcount := closeCount_run cs (inv_init src0).2 rfl hrun
  have hiff : (∀ c, step c t = none) ↔ t.closed = true := by
    constructor
    · intro hno
      cases hc : t.closed with
      | true => rfl
      | false =>
        obtain ⟨c, u, hu⟩ := step_progress hl hc
        rw [hno c] at hu
        simp at hu
    · intro hc c
      exact step_closed hl hc c
  refine ⟨hiff, hcount, ?_, ?_⟩
  · intro hno
    rw [hcount, hiff.1 hno]
    rfl
  · intro hc
    obtain ⟨h1, h2, h3⟩ := closed_facts hinv hc
    exact ⟨step_closed hl hc .send, h1, h2, h3,
      closure_observed cs (inv_init src0).2 (Or.inl rfl) hrun hc⟩

/-- Witness for C4: on the source `[1]`, the run receive, send, receive is
complete, and `close(out)` has been executed exactly once in it. -/
theorem drainQueue_closes_out_once_witness :
    drainQueue [.recv, .send, .recv] [Value.item 1] = some ⟨[], [], [.item 1], true, .done⟩ ∧
    closeCount [.recv, .send, .recv] (init [Value.item 1]) = 1 :=
  ⟨rfl, (drainQueue_closes_out_once [Value.item 1] [.recv, .send, .recv]
    ⟨[], [], [.item 1], true, .done⟩ rfl).2.1⟩

/-- C6: the backlog absorbs a burst of any size.  For every sequence of `n`
genuine values, the run that takes `n` receives before any send is legal and
reaches a state with nothing sent and `pending` holding exactly the `n` values
in order; observing the closure and then sending `n` times delivers all of
them in order and closes `out`; every continuation of the burst that closes
`out` has delivered exactly the `n` values; and in every reachable state in
which the closure has not been observed a receive from the Result Source is
enabled, whatever `out` does. -/
theorem drainQueue_absorbs_burst {α : Type} (vs : List α) :
    drainQueue (List.replicate vs.length .recv) (vs.map Value.item)
      = some ⟨[], vs.map Value.item, [], false, if vs.length = 0 then .prime else .select⟩ ∧
    drainQueue (List.replicate (vs.length + 1) .recv ++ List.replicate vs.length .send)
        (vs.map Value.item)
      = some ⟨[], [], vs.map Value.item, true, .done⟩ ∧
    (∀ (cs : List Choice) (t : State α),
      drainQueue (List.replicate vs.length .recv ++ cs) (vs.map Value.item) = some t →
      t.closed = true → t.out = vs.map Value.item) ∧
    (∀ (src0 : List (Value α)) (cs : List Choice) (s : State α),
      drainQueue cs src0 = some s → s.loc = .prime ∨ s.loc = .select →
      ∃ t, step .recv s = some t) := by
  refine ⟨?_, ?_, ?_, ?_⟩
  · have h := run_recv_all (vs.map Value.item) [] []
    simp only [List.length_map, List.nil_append, dropEmpty_map_item] at h
    have h0 : init (vs.map Value.item) = loopHead ⟨vs.map Value.item, [], [], false, .prime⟩ := by
      simp [init, loopHead]
    rw [drainQueue, h0, h]
    rcases vs with _ | ⟨a, as⟩ <;> simp [loopHead]
  · have h := run_burst (vs.map Value.item)
    simpa only [burst, dropEmpty_map_item, List.length_map] using h
  · intro cs t hrun hc
    rw [(closed_facts (inv_drainQueue hrun) hc).2.2, dropEmpty_map_item]
  · intro src0 cs s hrun hloc
    have hl := (inv_drainQueue hrun).2
    obtain ⟨src, pending, out, closed, loc⟩ := s
    simp only at hloc
    rcases hloc with rfl | rfl
    · simp only [step]
      rcases src with _ | ⟨v, rest⟩
      · exact ⟨_, rfl⟩
      · by_cases hv : v.isEmpty = true <;> simp [hv]
    · rcases pending with _ | ⟨p, ps⟩
      · exact absurd rfl hl.1
      · simp only [step]
        rcases src with _ | ⟨v, rest⟩
        · exact ⟨_, rfl⟩
        · by_cases hv : v.isEmpty = true <;> simp [hv]

/-- Witness for C6: the burst `[1, 2, 3]` is wholly pending after three
receives, a fourth value can still be received there, and a run that continues
the burst to closure delivers `[1, 2, 3]`. -/
theorem drainQueue_absorbs_burst_witness :
    drainQueue [.recv, .recv, .recv] [Value.item 1, .item 2, .item 3]
      = some ⟨[], [.item 1, .item 2, .item 3], [], false, .select⟩ ∧
    (∃ t : State Nat, step .recv ⟨[.item 4], [.item 1, .item 2, .item 3], [], false, .select⟩
      = some t) ∧
    (⟨[], [], [.item 1, .item 2, .item 3], true, .done⟩ : State Nat).out
      = [.item 1, .item 2, .item 3] :=
  ⟨(drainQueue_absorbs_burst [1, 2, 3]).1,
   (drainQueue_absorbs_burst [1, 2, 3]).2.2.2 [.item 1, .item 2, .item 3, .item 4]
      [.recv, .recv, .recv] ⟨[.item 4], [.item 1, .item 2, .item 3], [], false, .select⟩
      rfl (Or.inr rfl),
   (drainQueue_absorbs_burst [1, 2, 3]).2.2.1 [.send, .recv, .send, .send]
      ⟨[], [], [.item 1, .item 2, .item 3], true, .done⟩ rfl rfl⟩

/-- C9: `drainQueue` never evaluates `pending[0]` on an empty slice.  In every
reachable state the location is not `panicked`; at the `select`, `pending` is
`p :: ps`, the send offered delivers `p`, and `p` is the oldest received
genuine value not yet delivered; with `pending` empty no send is offered (the
state is the priming receive, or the function has returned), in particular
after an Empty Marker is discarded while priming and after a send empties
`pending`. -/
theorem drainQueue_select_pending_nonempty {α : Type} (src0 : List (Value α))
    (cs : List Choice) (s : State α) (hrun : drainQueue cs src0 = some s) :
    s.loc ≠ .panicked ∧
    (s.loc = .select → ∃ p ps r, s.pending = p :: ps ∧
      step .send s = some (loopHead { s with pending := ps, out := s.out ++ [p] }) ∧
      src0 = r ++ s.src ∧ (dropEmpty r)[s.out.length]? = some p) ∧
    (s.pending = [] → step .send s = none ∧ (s.loc = .prime ∨ s.loc = .done)) ∧
    (s.loc = .prime → ∀ rest, s.src = .empty :: rest →
      step .recv s = some ⟨rest, [], s.out, false, .prime⟩ ∧
      step .send ⟨rest, [], s.out, false, .prime⟩ = none) ∧
    (s.loc = .select → ∀ p, s.pending = [p] →
      step .send s = some ⟨s.src, [], s.out ++ [p], false, .prime⟩ ∧
      step .send ⟨s.src, [], s.out ++ [p], false, .prime⟩ = none) := by
  obtain ⟨⟨r, hr, ho⟩, hl⟩ := inv_drainQueue hrun
  obtain ⟨src, pending, out, closed, loc⟩ := s
  simp only at hr ho ⊢
  refine ⟨?_, ?_, ?_, ?_, ?_⟩
  · rintro rfl
    exact hl
  · rintro rfl
    rcases pending with _ | ⟨p, ps⟩
    · exact absurd rfl hl.1
    · refine ⟨p, ps, r, rfl, rfl, hr, ?_⟩
      rw [← ho, List.getElem?_append_right (Nat.le_refl _)]
      simp
  · rintro rfl
    cases loc <;> simp [LocOK] at hl <;> simp [step]
  · rintro rfl rest rfl
    obtain ⟨rfl, rfl⟩ := hl
    exact ⟨by simp [step, Value.isEmpty, loopHead], rfl⟩
  · rintro rfl p rfl
    have hcl : closed = false := hl.2
    subst hcl
    exact ⟨by simp [step, loopHead], rfl⟩

/-- Witness for C9: on the source `[1, Empty, 2]` after receive, receive,
receive, send the state is at the `select` with `pending = [2]`, and the send
offered there delivers `2`. -/
theorem drainQueue_select_pending_nonempty_witness :
    drainQueue [.recv, .recv, .recv, .send] [Value.item 1, .empty, .item 2]
      = some ⟨[], [.item 2], [.item 1], false, .select⟩ ∧
    step .send (⟨[], [.item 2], [.item 1], false, .select⟩ : State Nat)
      = some ⟨[], [], [.item 1] ++ [.item 2], false, .prime⟩ :=
  ⟨rfl, ((drainQueue_select_pending_nonempty [Value.item 1, .empty, .item 2]
    [.recv, .recv, .recv, .send] ⟨[], [.item 2], [.item 1], false, .select⟩ rfl).2.2.2.2
      rfl (.item 2) rfl).1⟩

/-- C10: `drainQueue` terminates on every finite source.  From the initial state
on a source of length `n` there is no infinite sequence of steps; every run has
at most `2 * n + 1` steps; a run that has not closed `out` can take a further
step; every step is the receive of one source value, the delivery of the head
of `pending`, or the observation of the closure, and on each of the first two
`2 * (source values left) + (length of pending)` strictly decreases; and on a
source of `n` Empty Markers the `n + 1` receives end with `out` closed. -/
theorem drainQueue_terminates {α : Type} (src0 : List (Value α)) :
    (¬ ∃ f : Nat → State α, f 0 = init src0 ∧ ∀ i, ∃ c, step c (f i) = some (f (i + 1))) ∧
    (∀ (cs : List Choice) (t : State α), drainQueue cs src0 = some t →
      cs.length ≤ 2 * src0.length + 1 ∧
      (t.closed = false → ∃ c u, step c t = some u) ∧
      ∀ c u, step c t = some u →
        ((c = .send ∨ t.src ≠ []) → work u < work t) ∧
        (c = .recv ∧ (∃ v, t.src = v :: u.src) ∧ u.out = t.out ∨
         c = .send ∧ (∃ p, t.pending = p :: u.pending ∧ u.out = t.out ++ [p]) ∧
           u.src = t.src ∨
         c = .recv ∧ t.src = [] ∧ u.src = [] ∧ u.pending = t.pending ∧ u.out = t.out)) ∧
    (∀ n : Nat, drainQueue (List.replicate (n + 1) .recv)
        (List.replicate n (Value.empty : Value α)) = some ⟨[], [], [], true, .done⟩) := by
  refine ⟨no_infinite_run _ (inv_init src0).2, ?_, ?_⟩
  · intro cs t hrun
    have hl := (inv_drainQueue hrun).2
    refine ⟨?_, step_progress hl, ?_⟩
    · have h := run_length_le cs (inv_init src0).2 hrun
      rw [budget_init] at h
      omega
    · intro c u hstep
      have htr := trans_of_step hl hstep
      refine ⟨work_trans htr, ?_⟩
      cases htr <;> simp
  · intro n
    have h := run_burst (List.replicate n (Value.empty : Value α))
    simpa only [burst, dropEmpty_replicate_empty, List.length_replicate, List.length_nil,
      List.replicate_zero, List.append_nil] using h

/-- Witness for C10: the run receive, receive, send, send, receive on the source
`[1, 2]` has `5 = 2 * 2 + 1` steps and ends with `out` closed. -/
theorem drainQueue_terminates_witness :
    drainQueue [.recv, .recv, .send, .send, .recv] [Value.item 1, .item 2]
      = some ⟨[], [], [.item 1, .item 2], true, .done⟩ ∧
    ([.recv, .recv, .send, .send, .recv] : List Choice).length
      ≤ 2 * ([Value.item 1, .item 2] : List (Value Nat)).length + 1 :=
  ⟨rfl, ((drainQueue_terminates [Value.item 1, .item 2]).2.1
    [.recv, .recv, .send, .send, .recv] ⟨[], [], [.item 1, .item 2], true, .done⟩ rfl).1⟩

/-! ## The dispatcher `fillQueue` -/

/-- C7: on a channel `in` that delivers `items` and is then closed,
`fillQueue` returns once it has enough iterations (`items.length + 1`: one per
item and the one that observes the closure), having received every item and
started exactly one worker per item, in arrival order, each calling
`Parser.Execute` with exactly that item, and no other; after `k ≤ items.length`
iterations it has not returned and has started the workers of the first `k`
items. -/
theorem fillQueue_starts_one_worker_per_item {β : Type} (exec : β → Nat) (items : List β) :
    (∀ fuel, items.length < fuel →
      fillQueue exec fuel items = ⟨[], items.map (processWorker exec), true⟩ ∧
      (fillQueue exec fuel items).workers.map Worker.call = items.map Call.parserExecute ∧
      (fillQueue exec fuel items).workers.length = items.length) ∧
    (∀ k, k ≤ items.length →
      fillQueue exec k items
        = ⟨items.drop k, (items.take k).map (processWorker exec), false⟩) := by
  constructor
  · intro fuel hfuel
    have h := fillLoop_enough exec items [] fuel hfuel
    simp only [List.nil_append] at h
    refine ⟨h, ?_, ?_⟩
    · rw [fillQueue, h]
      simp [processWorker, process]
    · rw [fillQueue, h]
      simp
  · intro k hk
    have h := fillLoop_short exec k items [] hk
    simpa only [List.nil_append] using h

/-- Witness for C7: on the items `[10, 20]`, three iterations suffice, and the
workers started call `Parser.Execute(10)` and `Parser.Execute(20)` in that
order. -/
theorem fillQueue_starts_one_worker_per_item_witness :
    [10, 20].length < 3 ∧
    (fillQueue (fun _ => 1) 3 [10, 20]).workers.map Worker.call
      = [Call.parserExecute 10, Call.parserExecute 20] :=
  ⟨by decide,
   ((fillQueue_starts_one_worker_per_item (fun _ => 1) [10, 20]).1 3 (by decide)).2.1⟩

/-- C8: the dispatcher does not wait for a worker.  With Work Items `a` and `b`
next on `in`, two turns of the dispatcher start the workers of `a` and of `b`
while the evaluation of `a` still has all of its `exec a` steps to run, however
large `exec a` is; a turn of the dispatcher is enabled in every state in which
`fillQueue` has not returned, whatever the workers are doing, and leaves them
untouched; a turn of a worker changes neither `in` nor the calls started; and
under every interleaving the calls started are those of the first items, as
many as the dispatcher has had turns. -/
theorem fillQueue_starts_next_without_waiting {β : Type} (exec : β → Nat) (a b : β)
    (rest : List β) (ws : List (Worker β)) :
    sysRun exec [.dispatcher, .dispatcher] ⟨a :: b :: rest, ws, false⟩
      = some ⟨rest, ws ++ [⟨.parserExecute a, exec a⟩, ⟨.parserExecute b, exec b⟩], false⟩ ∧
    (∀ f : Fill β, f.returned = false →
      ∃ g, sysStep exec .dispatcher f = some g ∧ f.workers <+: g.workers ∧
        ∀ v rest2, f.inp = v :: rest2 → g.workers = f.workers ++ [processWorker exec v]) ∧
    (∀ (i : Nat) (f g : Fill β), sysStep exec (.worker i) f = some g →
      g.inp = f.inp ∧ g.returned = f.returned ∧
      g.workers.map Worker.call = f.workers.map Worker.call) ∧
    (∀ (sched : List Turn) (g : Fill β),
      sysRun exec sched ⟨a :: b :: rest, ws, false⟩ = some g →
      g.workers.map Worker.call
        = ws.map Worker.call
          ++ ((a :: b :: rest).take (sched.count .dispatcher)).map Call.parserExecute) := by
  refine ⟨?_, ?_, ?_, ?_⟩
  · simp [sysRun, sysStep, fillStep, processWorker, process]
  · intro f hf
    obtain ⟨inp, workers, returned⟩ := f
    simp only at hf
    subst hf
    cases inp with
    | nil => exact ⟨_, rfl, List.prefix_refl _, by simp⟩
    | cons v rest2 =>
      refine ⟨_, rfl, List.prefix_append _ _, ?_⟩
      intro v2 rest3 h
      simp only [List.cons.injEq] at h
      rw [h.1]
  · intro i f g h
    simp only [sysStep] at h
    cases h2 : tick i f.workers with
    | none => simp [h2] at h
    | some ws2 =>
      simp only [h2, Option.map_some', Option.some.injEq] at h
      subst h
      exact ⟨rfl, rfl, tick_call i _ _ h2⟩
  · intro sched g h
    exact (sysRun_started exec sched _ g h).1

/-- Witness for C8: with an evaluation of `a = 1` that takes a million steps,
the interleaving dispatcher, worker 0, dispatcher starts `Parser.Execute(2)`
while `Parser.Execute(1)` has run a single step. -/
theorem fillQueue_starts_next_without_waiting_witness :
    sysRun (fun v => if v = 1 then 1000000 else 1)
        [.dispatcher, .worker 0, .dispatcher] ⟨[1, 2], [], false⟩
      = some ⟨[], [⟨.parserExecute 1, 999999⟩, ⟨.parserExecute 2, 1⟩], false⟩ ∧
    ([⟨.parserExecute 1, 999999⟩, ⟨.parserExecute 2, 1⟩] : List (Worker Nat)).map Worker.call
      = [Call.parserExecute 1, Call.parserExecute 2] :=
  ⟨by decide,
   (fillQueue_starts_next_without_waiting (fun v => if v = 1 then 1000000 else 1) 1 2 [] []).2.2.2
      [.dispatcher, .worker 0, .dispatcher]
      ⟨[], [⟨.parserExecute 1, 999999⟩, ⟨.parserExecute 2, 1⟩], false⟩ (by decide)⟩

end Roulette
